import Mathlib

/-!
Verification development for the HONE + damped-Kuramoto ensemble simulator
(`src/HONE+Kuramoto_ensemble_cpu.py`).

The NumPy code is embedded shallowly: an `N × D` array of node coordinates
becomes a function `Fin N → Fin D → ℝ`, per-node scalars become `Fin N → ℝ`,
machine floats become real numbers, and the one fallible operation in the
source — `np.min` over an empty selection inside `calculate_forces`, which
raises `ValueError` — is modelled by an `Option` result that propagates
through the simulation loop exactly as a Python exception would.
-/

open scoped Classical

namespace HONE

noncomputable section

variable {N D : ℕ}

/-- Euclidean norm of one node's `D`-dimensional row, as computed by
`np.linalg.norm` along the coordinate axis. -/
def nodeNorm (x : Fin D → ℝ) : ℝ :=
  Real.sqrt (∑ d, x d ^ 2)

/-- Distance `d_j` between node `i` and node `j` used throughout the source:
the Euclidean norm of the displacement `positions[j] - positions[i]`. -/
def nodeDist (p : Fin N → Fin D → ℝ) (i j : Fin N) : ℝ :=
  nodeNorm (fun d => p j d - p i d)

/-- Index set of the boolean array `mask = distances > 1e-6` from
`calculate_forces` (line 64): the nodes kept in node `i`'s force sum. -/
def mask (p : Fin N → Fin D → ℝ) (i : Fin N) : Finset (Fin N) :=
  Finset.univ.filter (fun j => (1e-6 : ℝ) < nodeDist p i j)

/-- Embedding of `calculate_forces` (lines 54–68).  For each node `i` the
source computes displacements `delta`, distances, and the mask of nodes
farther than `1e-6`, then executes
`distances[~mask] = max(1e-6, np.min(distances[mask]))` and sums
`adj_matrix[i, mask][:, None] * delta[mask] / distances[mask, None]`.

Two facts about the source are reflected here.  First, when `mask` is empty
for some `i` (every other node within `1e-6` of node `i`; note node `i`
itself always has distance `0`), `np.min` of the empty selection raises
`ValueError`, so the whole call fails: this is the `none` branch.  Second,
when `mask` is nonempty, the regularizing assignment only overwrites
entries of `distances` that `~mask` selects, i.e. entries never read by the
masked force sum, so the returned forces divide by the original masked
distances. -/
def calculate_forces (adj : Fin N → Fin N → ℝ) (p : Fin N → Fin D → ℝ) :
    Option (Fin N → Fin D → ℝ) :=
  if ∀ i : Fin N, (mask p i).Nonempty then
    some (fun i d => ∑ j ∈ mask p i, adj i j * ((p j d - p i d) / nodeDist p i j))
  else none

/-- Embedding of `compute_potential_energy` (lines 70–78):
`0.5 * sum(adj[i, j] * max(norm(positions[i] - positions[j]), 1e-6) ** 2)`
over `i in range(N)`, `j in range(i)`, i.e. over pairs with `j < i`. -/
def compute_potential_energy (adj : Fin N → Fin N → ℝ) (p : Fin N → Fin D → ℝ) : ℝ :=
  0.5 * ∑ i, ∑ j ∈ Finset.univ.filter (fun j => j < i),
    adj i j * max (nodeNorm (fun d => p i d - p j d)) (1e-6) ^ 2

/-- Embedding of the Kuramoto coupling sums (lines 90–92):
`phase_diffs[i] = sum(adj_matrix[i] * sin(phases - phases[i]))`, summed over
all `j` (the `j = i` term contributes `sin 0 = 0`). -/
def phase_diffs (adj : Fin N → Fin N → ℝ) (θ : Fin N → ℝ) : Fin N → ℝ :=
  fun i => ∑ j, adj i j * Real.sin (θ j - θ i)

/-- Kinetic energy of line 100:
`0.5 * np.sum(np.linalg.norm(velocities, axis=1) ** 2)`. -/
def kineticEnergy (v : Fin N → Fin D → ℝ) : ℝ :=
  0.5 * ∑ i, nodeNorm (v i) ^ 2

/-- Convergence measure of line 110:
`np.sum(np.linalg.norm(new_positions - positions, axis=1))`. -/
def total_movement (pOld pNew : Fin N → Fin D → ℝ) : ℝ :=
  ∑ i, nodeNorm (fun d => pNew i d - pOld i d)

/-- Integration parameters of one realization (arguments of the worker). -/
structure Params where
  dt : ℝ
  gamma : ℝ
  gamma_theta : ℝ
  K : ℝ
  tol : ℝ

/-- Mutable per-realization state: `positions`, `velocities`, `phases`,
`phase_velocities` of the worker. -/
@[ext]
structure SimState (N D : ℕ) where
  positions : Fin N → Fin D → ℝ
  velocities : Fin N → Fin D → ℝ
  phases : Fin N → ℝ
  phase_velocities : Fin N → ℝ

/-- Embedding of the phase half of the loop body (lines 89–96):
`phase_accelerations = intrinsic_frequencies + K * phase_diffs - gamma_theta * phase_velocities`,
`phase_velocities += phase_accelerations * dt`,
`new_phases = phases + phase_velocities * dt`.
Returns the pair `(new_phases, new phase_velocities)`. -/
def phaseUpdate (adj : Fin N → Fin N → ℝ) (K gamma_theta dt : ℝ)
    (ω θ pv : Fin N → ℝ) : (Fin N → ℝ) × (Fin N → ℝ) :=
  let pa := fun i => ω i + K * phase_diffs adj θ i - gamma_theta * pv i
  let pv' := fun i => pv i + pa i * dt
  (fun i => θ i + pv' i * dt, pv')

/-- Embedding of one iteration of the simulation loop (lines 83–96), state
part only: compute forces (which may fail, see `calculate_forces`), then
`velocities += forces * dt - gamma * velocities`,
`new_positions = positions + velocities * dt`,
then the phase update.  The damping terms read the pre-update
`velocities` / `phase_velocities`. -/
def stepState (P : Params) (adj : Fin N → Fin N → ℝ) (ω : Fin N → ℝ)
    (s : SimState N D) : Option (SimState N D) :=
  (calculate_forces adj s.positions).map (fun forces =>
    let velocities' := fun i d =>
      s.velocities i d + forces i d * P.dt - P.gamma * s.velocities i d
    let positions' := fun i d => s.positions i d + velocities' i d * P.dt
    let ph := phaseUpdate adj P.K P.gamma_theta P.dt ω s.phases s.phase_velocities
    { positions := positions'
      velocities := velocities'
      phases := ph.1
      phase_velocities := ph.2 })

/-- The five history lists returned by the worker. -/
@[ext]
structure Histories (N D : ℕ) where
  positions_history : List (Fin N → Fin D → ℝ)
  phase_history : List (Fin N → ℝ)
  potential_energy_history : List ℝ
  kinetic_energy_history : List ℝ
  total_energy_history : List ℝ

/-- One iteration's history appends (lines 87, 97, 100–107): the new
positions and phases, the kinetic energy of the post-update velocities, the
potential energy of the new positions, and their sum. -/
def recordStep (adj : Fin N → Fin N → ℝ) (h : Histories N D) (s' : SimState N D) :
    Histories N D :=
  let kin := kineticEnergy s'.velocities
  let pot := compute_potential_energy adj s'.positions
  { positions_history := h.positions_history ++ [s'.positions]
    phase_history := h.phase_history ++ [s'.phases]
    potential_energy_history := h.potential_energy_history ++ [pot]
    kinetic_energy_history := h.kinetic_energy_history ++ [kin]
    total_energy_history := h.total_energy_history ++ [kin + pot] }

/-- Embedding of the simulation loop (lines 81–117), by recursion on the
remaining iteration budget.  Each executed iteration steps the state
(failure of `calculate_forces` aborts the run, as the Python exception
would, discarding the histories), records the step, and then breaks if
`total_movement < tol` — the convergence check of lines 110–113, performed
after the step's histories and energies were appended. -/
def runLoop (P : Params) (adj : Fin N → Fin N → ℝ) (ω : Fin N → ℝ) :
    ℕ → SimState N D → Histories N D → Option (Histories N D)
  | 0, _, h => some h
  | n + 1, s, h =>
    match stepState P adj ω s with
    | none => none
    | some s' =>
      let h' := recordStep adj h s'
      if total_movement s.positions s'.positions < P.tol then some h'
      else runLoop P adj ω n s' h'

/-- Initial state of a realization (lines 37–45): positions drawn from the
seeded generator (passed here as `p0`), zero velocities, phases drawn
uniformly in `[0, 2π)` (passed as `θ0`), zero phase velocities. -/
def initState (p0 : Fin N → Fin D → ℝ) (θ0 : Fin N → ℝ) : SimState N D :=
  { positions := p0
    velocities := fun _ _ => 0
    phases := θ0
    phase_velocities := fun _ => 0 }

/-- Initial histories (lines 48–52): the initial positions and phases at
index 0, and empty energy lists. -/
def initHistories (p0 : Fin N → Fin D → ℝ) (θ0 : Fin N → ℝ) : Histories N D :=
  { positions_history := [p0]
    phase_history := [θ0]
    potential_energy_history := []
    kinetic_energy_history := []
    total_energy_history := [] }

/-- Embedding of `HONE_worker_with_damped_kuramoto` (lines 7–119).  The
random draws the source takes from the globally seeded generator —
`positions ~ U[0,1)^(N×D)`, `phases ~ U[0,2π)^N`,
`intrinsic_frequencies ~ Normal(0,1)^N` — are passed in as the parameters
`p0`, `θ0`, `ω`; everything after the draws is deterministic in them. -/
def HONE_worker_with_damped_kuramoto (P : Params) (adj : Fin N → Fin N → ℝ)
    (iterations : ℕ) (p0 : Fin N → Fin D → ℝ) (θ0 : Fin N → ℝ) (ω : Fin N → ℝ) :
    Option (Histories N D) :=
  runLoop P adj ω iterations (initState p0 θ0) (initHistories p0 θ0)

/-- State after `t` executed iterations of the loop body, ignoring the
convergence break: the reference trajectory of a realization. -/
def traj (P : Params) (adj : Fin N → Fin N → ℝ) (ω : Fin N → ℝ)
    (s0 : SimState N D) : ℕ → Option (SimState N D)
  | 0 => some s0
  | t + 1 => (traj P adj ω s0 t).bind (stepState P adj ω)

/-- A list of states forming a step chain from `s0`: each element is the
successful `stepState` image of its predecessor. -/
def stepChain (P : Params) (adj : Fin N → Fin N → ℝ) (ω : Fin N → ℝ) :
    SimState N D → List (SimState N D) → Prop
  | _, [] => True
  | s, s' :: L => stepState P adj ω s = some s' ∧ stepChain P adj ω s' L

/-- Sequencing of the futures' results in submission order (lines 164–165:
`for i, future in enumerate(futures): results[i] = future.result()`): the
first raised worker exception propagates, otherwise the results are
collected in seed order. -/
def collectResults {α : Type} : List (Option α) → Option (List α)
  | [] => some []
  | o :: rest => o.bind (fun x => (collectResults rest).map (x :: ·))

/-- Embedding of `HONE_kuramoto_ensemble` (lines 121–174), downstream of the
external graph-to-matrix conversion: one worker call per seed
`0, …, ensemble_size - 1`, joined in submission (= seed) order.  The
per-seed random draws are abstracted by `draws`.  Mirroring the source,
no validation of the adjacency matrix or of the configuration values is
performed before the workers are dispatched. -/
def HONE_kuramoto_ensemble (P : Params) (adj : Fin N → Fin N → ℝ)
    (iterations ensemble_size : ℕ)
    (draws : ℕ → (Fin N → Fin D → ℝ) × (Fin N → ℝ) × (Fin N → ℝ)) :
    Option (List (Histories N D)) :=
  collectResults ((List.range ensemble_size).map (fun seed =>
    HONE_worker_with_damped_kuramoto P adj iterations
      (draws seed).1 (draws seed).2.1 (draws seed).2.2))

/-! Definitions written from the specification's words, to be compared with
the definitions above, which were translated from the source. -/

/-- Force law in the words of the specification (section 4.1 and C6):
force on node `i` is the sum over included `j` (those with `d_j > 1e-6`) of
`adjacency[i,j] * (delta_j / max(d_j, floor))` with floor `1e-6`. -/
def specForce (adj : Fin N → Fin N → ℝ) (p : Fin N → Fin D → ℝ) :
    Fin N → Fin D → ℝ :=
  fun i d => ∑ j ∈ Finset.univ.filter (fun j => (1e-6 : ℝ) < nodeDist p i j),
    adj i j * ((p j d - p i d) / max (nodeDist p i j) (1e-6))

/-- Potential energy in the words of the specification (section 4.2 and C7):
for every unordered pair `(i, j)` with `i < j`, accumulate
`0.5 * adjacency[i,j] * max(dist(i,j), 1e-6)^2`. -/
def specPotential (adj : Fin N → Fin N → ℝ) (p : Fin N → Fin D → ℝ) : ℝ :=
  ∑ i, ∑ j ∈ Finset.univ.filter (fun j => i < j),
    0.5 * (adj i j * max (nodeDist p i j) (1e-6) ^ 2)

/-! Concrete configurations used as inputs below. -/

/-- Two nodes in one dimension at coordinates `0` and `1`. -/
def p0c : Fin 2 → Fin 1 → ℝ := ![![0], ![1]]

/-- All-zero initial phases. -/
def θ0c : Fin 2 → ℝ := fun _ => 0

/-- All-zero intrinsic frequencies. -/
def ωc : Fin 2 → ℝ := fun _ => 0

/-- The all-zero adjacency matrix on two nodes. -/
def adjc : Fin 2 → Fin 2 → ℝ := fun _ _ => 0

/-- Parameters `dt = 1`, `gamma = 1`, `gamma_theta = 0`, `K = 0`, `tol = 1`. -/
def Pc : Params := ⟨1, 1, 0, 0, 1⟩

/-- Two nodes at identical coordinates in two dimensions. -/
def pCoin : Fin 2 → Fin 2 → ℝ := fun _ _ => 0

/-- Positive symmetric edge weight `w = 2` between the two nodes. -/
def adj1c : Fin 2 → Fin 2 → ℝ := ![![0, 2], ![2, 0]]

/-- Two separated nodes in two dimensions: `p0 = (0,0)`, `p1 = (3,4)`. -/
def p6c : Fin 2 → Fin 2 → ℝ := ![![0, 0], ![3, 4]]

/-- Parameter bundle with the documented defaults of the orchestrator:
`dt = 0.01`, `gamma = 1`, `gamma_theta = 0.1`, `K = 0.5`, `tol = 1e-4`. -/
def Pdef : Params := ⟨0.01, 1, 0.1, 0.5, 1e-4⟩

/-- Adjacency matrix with negative weights. -/
def adj5c : Fin 2 → Fin 2 → ℝ := ![![0, -1], ![-1, 0]]

/-- Invalid configuration: `dt = 0` (non-positive) and `tol = -1` (negative). -/
def P5c : Params := ⟨0, 1, 0.1, 0.5, -1⟩

end

/-! Model of the process-global NumPy generator shared by the worker
threads.  `np.random.seed(seed)` (line 33) mutates one process-wide
generator, and `HONE_kuramoto_ensemble` submits every worker to a
`ThreadPoolExecutor` (lines 156–163), so the seeding and drawing calls of
different realizations may interleave.  The generator is abstracted to its
internal state: seeding sets the state to the seed, a draw returns a value
determined by the current state and advances the state.  Each worker
executes two atomic operations — seed with its own seed, then draw its
random initial data — and stores its draw into the result slot of its own
index, as the futures loop does. -/

/-- Abstract process-global generator state. -/
structure GlobalRNG where
  state : ℕ

/-- Seeding the global generator: `np.random.seed(s)`. -/
def seedRNG (s : ℕ) (_ : GlobalRNG) : GlobalRNG := ⟨s⟩

/-- Drawing from the global generator: the value is a function of the
current internal state, and the state advances. -/
def drawRNG (g : GlobalRNG) : ℕ × GlobalRNG := (g.state, ⟨g.state + 1⟩)

/-- Interleaved execution state of `n` worker threads over the shared
generator: the generator, each worker's program counter (0 = about to
seed, 1 = about to draw, 2 = done) and each worker's stored draw. -/
structure ThreadState (n : ℕ) where
  rng : GlobalRNG
  pc : Fin n → ℕ
  results : Fin n → Option ℕ

/-- One scheduler step: run the next operation of worker `w`. -/
def threadStep {n : ℕ} (w : Fin n) (st : ThreadState n) : ThreadState n :=
  if st.pc w = 0 then
    { st with rng := seedRNG w.val st.rng, pc := Function.update st.pc w 1 }
  else if st.pc w = 1 then
    let d := drawRNG st.rng
    { rng := d.2
      pc := Function.update st.pc w 2
      results := Function.update st.results w (some d.1) }
  else st

/-- Run a thread schedule from the initial execution state. -/
def runSchedule (n : ℕ) (sched : List (Fin n)) : ThreadState n :=
  sched.foldl (fun st w => threadStep w st) ⟨⟨0⟩, fun _ => 0, fun _ => none⟩

/-! Basic facts about the embedded operations. -/

noncomputable section

variable {N D : ℕ}

lemma nodeNorm_nonneg (x : Fin D → ℝ) : 0 ≤ nodeNorm x :=
  Real.sqrt_nonneg _

lemma nodeNorm_zero_fun : nodeNorm (fun _ : Fin D => (0 : ℝ)) = 0 := by
  simp [nodeNorm]

lemma nodeDist_self (p : Fin N → Fin D → ℝ) (i : Fin N) : nodeDist p i i = 0 := by
  simp [nodeDist, nodeNorm]

lemma nodeDist_comm (p : Fin N → Fin D → ℝ) (i j : Fin N) :
    nodeDist p i j = nodeDist p j i := by
  unfold nodeDist nodeNorm
  congr 1
  exact Finset.sum_congr rfl (fun d _ => by ring)

lemma total_movement_self (q : Fin N → Fin D → ℝ) : total_movement q q = 0 := by
  simp [total_movement, nodeNorm]

/-! Evaluation of the code on the concrete two-node configurations. -/

lemma nodeDist_p0c : nodeDist p0c 0 1 = 1 := by
  unfold nodeDist nodeNorm p0c
  norm_num

lemma mask_p0c_nonempty (i : Fin 2) : (mask p0c i).Nonempty := by
  fin_cases i
  · exact ⟨1, by simp [mask, nodeDist_p0c]; norm_num⟩
  · exact ⟨0, by simp [mask, nodeDist_comm p0c 1 0, nodeDist_p0c]; norm_num⟩

lemma calculate_forces_adjc : calculate_forces adjc p0c = some (fun _ _ => 0) := by
  unfold calculate_forces
  rw [if_pos mask_p0c_nonempty]
  congr 1
  funext i d
  simp [adjc]

/-- Explicit form of a successful simulation step: spelling out the update
formulas of lines 83–96 with all `let` bindings substituted. -/
lemma stepState_of_forces (P : Params) (adj : Fin N → Fin N → ℝ) (ω : Fin N → ℝ)
    (s : SimState N D) (F : Fin N → Fin D → ℝ)
    (hF : calculate_forces adj s.positions = some F) :
    stepState P adj ω s = some
      { positions := fun i d =>
          s.positions i d + (s.velocities i d + F i d * P.dt - P.gamma * s.velocities i d) * P.dt
        velocities := fun i d =>
          s.velocities i d + F i d * P.dt - P.gamma * s.velocities i d
        phases := fun i =>
          s.phases i + (s.phase_velocities i +
            (ω i + P.K * phase_diffs adj s.phases i -
              P.gamma_theta * s.phase_velocities i) * P.dt) * P.dt
        phase_velocities := fun i =>
          s.phase_velocities i +
            (ω i + P.K * phase_diffs adj s.phases i -
              P.gamma_theta * s.phase_velocities i) * P.dt } := by
  unfold stepState phaseUpdate
  rw [hF]
  rfl

/-- With the all-zero adjacency matrix and zero initial velocities, the
concrete two-node state is a fixed point of the step. -/
lemma stepState_adjc :
    stepState Pc adjc ωc (initState p0c θ0c) = some (initState p0c θ0c) := by
  rw [stepState_of_forces Pc adjc ωc (initState p0c θ0c) (fun _ _ => 0)
    calculate_forces_adjc]
  refine congrArg some (SimState.ext ?_ ?_ ?_ ?_)
  · funext i d
    simp [initState, Pc]
  · funext i d
    simp [initState, Pc]
  · funext i
    simp [initState, Pc, θ0c, ωc]
  · funext i
    simp [initState, Pc, ωc]

lemma traj_adjc (t : ℕ) :
    traj Pc adjc ωc (initState p0c θ0c) t = some (initState p0c θ0c) := by
  induction t with
  | zero => rfl
  | succ t ih => simp [traj, ih, stepState_adjc]

lemma mask_pCoin_empty (i : Fin 2) : mask pCoin i = ∅ := by
  ext j
  simp only [mask, Finset.mem_filter, Finset.mem_univ, true_and,
    Finset.not_mem_empty, iff_false]
  simp [nodeDist, nodeNorm, pCoin]
  norm_num

lemma calculate_forces_pCoin : calculate_forces adj1c pCoin = none := by
  unfold calculate_forces
  rw [if_neg]
  intro hall
  have h0 := hall 0
  rw [mask_pCoin_empty 0] at h0
  exact Finset.not_nonempty_empty h0

/-- C1: a failure of the claimed regularization.  Two coincident nodes with
a positive edge weight make the mask empty for both nodes, `np.min` of the
empty selection raises, and the whole realization aborts with no force
value at all — not a finite force bounded by `w / 1e-6`. -/
theorem C1_coincident_positions_raise :
    calculate_forces adj1c pCoin = none ∧
    HONE_worker_with_damped_kuramoto Pdef adj1c 1 pCoin (fun _ => 0) (fun _ => 0) =
      none := by
  refine ⟨calculate_forces_pCoin, ?_⟩
  have hstep : stepState Pdef adj1c (fun _ => 0) (initState pCoin (fun _ => 0)) =
      none := by
    unfold stepState
    rw [show (initState pCoin (fun _ => 0) : SimState 2 2).positions = pCoin from rfl,
      calculate_forces_pCoin]
    rfl
  unfold HONE_worker_with_damped_kuramoto
  simp [runLoop, hstep]

/-- C4: divergent draw under interleaving.  With two workers sharing the
global generator, the schedule seed₀, seed₁, draw₀, draw₁ makes worker 0
draw from the generator state that worker 1 just seeded, while the
serialized schedule seed₀, draw₀, seed₁, draw₁ makes it draw from its own
seed.  The result stored in slot 0 differs between the two runs even
though the seeds and all parameters are identical. -/
theorem C4_shared_rng_schedule_dependence :
    (runSchedule 2 [0, 1, 0, 1]).results 0 = some 1 ∧
    (runSchedule 2 [0, 0, 1, 1]).results 0 = some 0 ∧
    (runSchedule 2 [0, 1, 0, 1]).results 0 ≠ (runSchedule 2 [0, 0, 1, 1]).results 0 := by
  refine ⟨by decide, by decide, by decide⟩

lemma stepState_adj5c :
    stepState P5c adj5c ωc (initState p0c θ0c) = some (initState p0c θ0c) := by
  have hF : ∃ F, calculate_forces adj5c p0c = some F := by
    unfold calculate_forces
    rw [if_pos mask_p0c_nonempty]
    exact ⟨_, rfl⟩
  obtain ⟨F, hF⟩ := hF
  rw [stepState_of_forces P5c adj5c ωc (initState p0c θ0c) F hF]
  refine congrArg some (SimState.ext ?_ ?_ ?_ ?_)
  · funext i d
    simp [initState, P5c]
  · funext i d
    simp [initState, P5c]
  · funext i
    simp [initState, P5c, θ0c, ωc]
  · funext i
    simp [initState, P5c, ωc]

/-- C5: the orchestrator performs no input validation.  With a
negative-weight adjacency matrix, `dt = 0` and `tol = -1`, the ensemble
does not fail fast at entry — it dispatches the realization, runs it to
completion, and returns a normal one-element result list. -/
theorem C5_no_input_validation :
    ∃ res, HONE_kuramoto_ensemble P5c adj5c 1 1 (fun _ => (p0c, θ0c, ωc)) =
      some res ∧ res.length = 1 := by
  have hrun : HONE_worker_with_damped_kuramoto P5c adj5c 1 p0c θ0c ωc =
      some (recordStep adj5c (initHistories p0c θ0c) (initState p0c θ0c)) := by
    unfold HONE_worker_with_damped_kuramoto
    simp only [runLoop, stepState_adj5c]
    rw [show (initState p0c θ0c : SimState 2 1).positions = p0c from rfl]
    rw [if_neg]
    rw [total_movement_self]
    show ¬ (0 : ℝ) < P5c.tol
    norm_num [P5c]
  refine ⟨[recordStep adj5c (initHistories p0c θ0c) (initState p0c θ0c)], ?_, rfl⟩
  unfold HONE_kuramoto_ensemble
  simp [collectResults, hrun]

/-! Characterization of the simulation loop. -/

lemma traj_shift (P : Params) (adj : Fin N → Fin N → ℝ) (ω : Fin N → ℝ)
    (s0 s1 : SimState N D) (hstep : stepState P adj ω s0 = some s1) :
    ∀ t, traj P adj ω s1 t = traj P adj ω s0 (t + 1) := by
  intro t
  induction t with
  | zero => simp [traj, hstep]
  | succ t ih => simp only [traj, ih]

lemma traj_one (P : Params) (adj : Fin N → Fin N → ℝ) (ω : Fin N → ℝ)
    (s0 : SimState N D) : traj P adj ω s0 1 = stepState P adj ω s0 := by
  simp [traj]

/-- If the movement measure first falls below `tol` after the step of index
`k` (with `k < n` iterations remaining), the loop stops there after one
final `recordStep`, so every history grows by exactly `k + 1` entries. -/
lemma runLoop_first_converge (P : Params) (adj : Fin N → Fin N → ℝ) (ω : Fin N → ℝ) :
    ∀ (k n : ℕ) (s0 : SimState N D) (h : Histories N D), k < n →
    (∀ t, t ≤ k → (traj P adj ω s0 (t + 1)).isSome) →
    (∀ t, t < k → ∀ a b, traj P adj ω s0 t = some a →
      traj P adj ω s0 (t + 1) = some b →
      ¬ total_movement a.positions b.positions < P.tol) →
    (∀ a b, traj P adj ω s0 k = some a → traj P adj ω s0 (k + 1) = some b →
      total_movement a.positions b.positions < P.tol) →
    ∃ h', runLoop P adj ω n s0 h = some h' ∧
      h'.positions_history.length = h.positions_history.length + (k + 1) ∧
      h'.phase_history.length = h.phase_history.length + (k + 1) ∧
      h'.potential_energy_history.length = h.potential_energy_history.length + (k + 1) ∧
      h'.kinetic_energy_history.length = h.kinetic_energy_history.length + (k + 1) ∧
      h'.total_energy_history.length = h.total_energy_history.length + (k + 1) := by
  intro k
  induction k with
  | zero =>
    intro n s0 h hk hsucc _ hconv
    obtain ⟨n', rfl⟩ : ∃ n', n = n' + 1 := ⟨n - 1, by omega⟩
    have h1 := hsucc 0 le_rfl
    rw [traj_one] at h1
    obtain ⟨s1, hs1⟩ := Option.isSome_iff_exists.mp h1
    have hmov := hconv s0 s1 rfl (by rw [traj_one]; exact hs1)
    refine ⟨recordStep adj h s1, ?_, ?_, ?_, ?_, ?_, ?_⟩
    · show runLoop P adj ω (n' + 1) s0 h = _
      simp only [runLoop, hs1]
      rw [if_pos hmov]
    all_goals simp [recordStep]
  | succ k ih =>
    intro n s0 h hk hsucc hfirst hconv
    obtain ⟨n', rfl⟩ : ∃ n', n = n' + 1 := ⟨n - 1, by omega⟩
    have h1 := hsucc 0 (by omega)
    rw [traj_one] at h1
    obtain ⟨s1, hs1⟩ := Option.isSome_iff_exists.mp h1
    have hnc := hfirst 0 (by omega) s0 s1 rfl (by rw [traj_one]; exact hs1)
    have hshift := traj_shift P adj ω s0 s1 hs1
    have hstep : runLoop P adj ω (n' + 1) s0 h =
        runLoop P adj ω n' s1 (recordStep adj h s1) := by
      simp only [runLoop, hs1]
      rw [if_neg hnc]
    obtain ⟨h', hrun, l1, l2, l3, l4, l5⟩ := ih n' s1 (recordStep adj h s1) (by omega)
      (fun t ht => by rw [hshift (t + 1)]; exact hsucc (t + 1) (by omega))
      (fun t ht a b ha hb => hfirst (t + 1) (by omega) a b
        ((hshift t).symm.trans ha) ((hshift (t + 1)).symm.trans hb))
      (fun a b ha hb => hconv a b
        ((hshift k).symm.trans ha) ((hshift (k + 1)).symm.trans hb))
    refine ⟨h', hstep.trans hrun, ?_, ?_, ?_, ?_, ?_⟩
    all_goals simp only [recordStep, List.length_append, List.length_singleton] at *
    all_goals omega

/-- C2: when the movement measure first falls below `tol` at the 0-indexed
step `s` with `s < iterations`, the realization terminates after recording
that step: the returned position and phase histories have length `s + 2`
(the initial state plus steps `0, …, s`, the triggering step included) and
each of the three energy histories has length `s + 1`, so no further steps
execute. -/
theorem C2_convergence_terminates_with_exact_lengths
    (P : Params) (adj : Fin N → Fin N → ℝ) (ω : Fin N → ℝ)
    (p0 : Fin N → Fin D → ℝ) (θ0 : Fin N → ℝ) (iterations s : ℕ)
    (hs : s < iterations)
    (hsucc : ∀ t, t ≤ s → (traj P adj ω (initState p0 θ0) (t + 1)).isSome)
    (hfirst : ∀ t, t < s → ∀ a b, traj P adj ω (initState p0 θ0) t = some a →
      traj P adj ω (initState p0 θ0) (t + 1) = some b →
      ¬ total_movement a.positions b.positions < P.tol)
    (hconv : ∀ a b, traj P adj ω (initState p0 θ0) s = some a →
      traj P adj ω (initState p0 θ0) (s + 1) = some b →
      total_movement a.positions b.positions < P.tol) :
    ∃ h, HONE_worker_with_damped_kuramoto P adj iterations p0 θ0 ω = some h ∧
      h.positions_history.length = s + 2 ∧
      h.phase_history.length = s + 2 ∧
      h.potential_energy_history.length = s + 1 ∧
      h.kinetic_energy_history.length = s + 1 ∧
      h.total_energy_history.length = s + 1 := by
  obtain ⟨h', hrun, l1, l2, l3, l4, l5⟩ :=
    runLoop_first_converge P adj ω s iterations (initState p0 θ0)
      (initHistories p0 θ0) hs hsucc hfirst hconv
  refine ⟨h', hrun, ?_, ?_, ?_, ?_, ?_⟩
  all_goals simp only [initHistories, List.length_singleton, List.length_nil] at *
  all_goals omega

/-- Concrete converging run for C2: the zero-adjacency two-node system with
zero initial velocity converges at step 0 of a 5-iteration budget, giving
histories of lengths 2, 2, 1, 1, 1. -/
theorem C2_witness :
    ∃ h, HONE_worker_with_damped_kuramoto Pc adjc 5 p0c θ0c ωc = some h ∧
      h.positions_history.length = 2 ∧
      h.phase_history.length = 2 ∧
      h.potential_energy_history.length = 1 ∧
      h.kinetic_energy_history.length = 1 ∧
      h.total_energy_history.length = 1 := by
  refine C2_convergence_terminates_with_exact_lengths Pc adjc ωc p0c θ0c 5 0
    (by norm_num)
    (fun t ht => by rw [Nat.le_zero.mp ht, traj_adjc 1]; rfl)
    (fun t ht => absurd ht (by omega))
    (fun a b ha hb => ?_)
  obtain rfl := Option.some.inj ((traj_adjc 0).symm.trans ha)
  obtain rfl := Option.some.inj ((traj_adjc 1).symm.trans hb)
  rw [total_movement_self]
  show (0 : ℝ) < Pc.tol
  norm_num [Pc]

/-- C3: a successful step of the integrator performs exactly the damped
updates of lines 85–86 and 94–96: the new velocity adds `force * dt` and
subtracts `gamma` times the pre-update velocity, the new position adds the
post-update velocity times `dt`; the phase acceleration is the intrinsic
frequency plus `K` times the coupling minus `gamma_theta` times the
pre-update phase velocity, and the new phase adds the post-update phase
velocity times `dt`. -/
theorem C3_integrator_updates
    (P : Params) (adj : Fin N → Fin N → ℝ) (ω : Fin N → ℝ)
    (s s' : SimState N D) (F : Fin N → Fin D → ℝ)
    (hF : calculate_forces adj s.positions = some F)
    (hstep : stepState P adj ω s = some s') :
    (∀ i d, s'.velocities i d =
      s.velocities i d + F i d * P.dt - P.gamma * s.velocities i d) ∧
    (∀ i d, s'.positions i d = s.positions i d + s'.velocities i d * P.dt) ∧
    (∀ i, s'.phase_velocities i = s.phase_velocities i +
      (ω i + P.K * phase_diffs adj s.phases i -
        P.gamma_theta * s.phase_velocities i) * P.dt) ∧
    (∀ i, s'.phases i = s.phases i + s'.phase_velocities i * P.dt) := by
  rw [stepState_of_forces P adj ω s F hF] at hstep
  obtain rfl := Option.some.inj hstep
  exact ⟨fun i d => rfl, fun i d => rfl, fun i => rfl, fun i => rfl⟩

/-- Concrete instance of C3 on the zero-adjacency two-node system. -/
theorem C3_witness :
    ∃ F s', calculate_forces adjc p0c = some F ∧
      stepState Pc adjc ωc (initState p0c θ0c) = some s' ∧
      (∀ i d, s'.velocities i d = (initState p0c θ0c).velocities i d +
        F i d * Pc.dt - Pc.gamma * (initState p0c θ0c).velocities i d) ∧
      (∀ i d, s'.positions i d =
        (initState p0c θ0c).positions i d + s'.velocities i d * Pc.dt) ∧
      (∀ i, s'.phase_velocities i = (initState p0c θ0c).phase_velocities i +
        (ωc i + Pc.K * phase_diffs adjc (initState p0c θ0c).phases i -
          Pc.gamma_theta * (initState p0c θ0c).phase_velocities i) * Pc.dt) ∧
      (∀ i, s'.phases i =
        (initState p0c θ0c).phases i + s'.phase_velocities i * Pc.dt) := by
  refine ⟨fun _ _ => 0, initState p0c θ0c, calculate_forces_adjc, stepState_adjc, ?_⟩
  exact C3_integrator_updates Pc adjc ωc (initState p0c θ0c) (initState p0c θ0c)
    (fun _ _ => 0) calculate_forces_adjc stepState_adjc

/-- C9: with `K = 0` the phase update of each node depends only on that
node's own phase, phase velocity and intrinsic frequency — the coupling
matrix drops out entirely — and from zero phase velocity one step gives
`phase_velocity = f * h` and, from zero phase, `phase = f * h^2`. -/
theorem C9_decoupled_phase_dynamics
    (adj : Fin N → Fin N → ℝ) (K g h : ℝ) (ω θ pv : Fin N → ℝ)
    (hK : K = 0) :
    (∀ i, (phaseUpdate adj K g h ω θ pv).2 i = pv i + (ω i - g * pv i) * h) ∧
    (∀ i, (phaseUpdate adj K g h ω θ pv).1 i =
      θ i + (pv i + (ω i - g * pv i) * h) * h) ∧
    (∀ i, pv i = 0 → (phaseUpdate adj K g h ω θ pv).2 i = ω i * h) ∧
    (∀ i, pv i = 0 → θ i = 0 →
      (phaseUpdate adj K g h ω θ pv).1 i = ω i * h ^ 2) := by
  subst hK
  refine ⟨fun i => ?_, fun i => ?_, fun i hpv => ?_, fun i hpv hθ => ?_⟩
  · simp only [phaseUpdate]
    ring
  · simp only [phaseUpdate]
    ring
  · simp only [phaseUpdate, hpv]
    ring
  · simp only [phaseUpdate, hpv, hθ]
    ring

/-- Concrete instance of C9: one node, `f = 7`, `g = 3`, `h = 2`, zero
initial phase and phase velocity, nonzero adjacency entry to stress the
decoupling: phase velocity after one step is `14 = f * h` and the phase is
`28 = f * h^2`. -/
theorem C9_witness :
    (phaseUpdate (fun _ _ : Fin 1 => (5 : ℝ)) 0 3 2
      (fun _ => 7) (fun _ => 0) (fun _ => 0)).2 0 = 14 ∧
    (phaseUpdate (fun _ _ : Fin 1 => (5 : ℝ)) 0 3 2
      (fun _ => 7) (fun _ => 0) (fun _ => 0)).1 0 = 28 := by
  have h := C9_decoupled_phase_dynamics (fun _ _ : Fin 1 => (5 : ℝ)) 0 3 2
    (fun _ => 7) (fun _ => 0) (fun _ => 0) rfl
  constructor
  · rw [h.2.2.1 0 rfl]
    norm_num
  · rw [h.2.2.2 0 rfl rfl]
    norm_num

/-- C6: when every pair of distinct nodes is farther apart than `1e-6`
(and there are at least two nodes, so every mask is nonempty), the computed
force is exactly the specification's formula: the sum over included `j` of
`adjacency[i,j] * (delta_j / max(d_j, 1e-6))`. -/
theorem C6_separated_force_formula
    (adj : Fin N → Fin N → ℝ) (p : Fin N → Fin D → ℝ)
    (hN : 1 < N)
    (hsep : ∀ i j, i ≠ j → (1e-6 : ℝ) < nodeDist p i j) :
    calculate_forces adj p = some (specForce adj p) := by
  have hne : ∀ i : Fin N, (mask p i).Nonempty := by
    intro i
    have : Nontrivial (Fin N) := Fin.nontrivial_iff_two_le.mpr (by omega)
    obtain ⟨j, hj⟩ := exists_ne i
    refine ⟨j, ?_⟩
    simp only [mask, Finset.mem_filter, Finset.mem_univ, true_and]
    exact hsep i j (Ne.symm hj)
  unfold calculate_forces
  rw [if_pos hne]
  congr 1
  funext i d
  unfold specForce mask
  refine Finset.sum_congr rfl (fun j hj => ?_)
  simp only [Finset.mem_filter, Finset.mem_univ, true_and] at hj
  rw [max_eq_left hj.le]

lemma nodeDist_p6c : nodeDist p6c 0 1 = 5 := by
  unfold nodeDist nodeNorm p6c
  rw [show (∑ d : Fin 2, ((![![(0 : ℝ), 0], ![3, 4]] : Fin 2 → Fin 2 → ℝ) 1 d -
      (![![(0 : ℝ), 0], ![3, 4]] : Fin 2 → Fin 2 → ℝ) 0 d) ^ 2) = 25 from by
    simp [Fin.sum_univ_two]
    norm_num]
  rw [show (25 : ℝ) = 5 ^ 2 from by norm_num, Real.sqrt_sq (by norm_num)]

lemma hsep_p6c : ∀ i j : Fin 2, i ≠ j → (1e-6 : ℝ) < nodeDist p6c i j := by
  intro i j hij
  fin_cases i <;> fin_cases j
  · exact absurd rfl hij
  · show (1e-6 : ℝ) < nodeDist p6c 0 1
    rw [nodeDist_p6c]
    norm_num
  · show (1e-6 : ℝ) < nodeDist p6c 1 0
    rw [nodeDist_comm, nodeDist_p6c]
    norm_num
  · exact absurd rfl hij

lemma filter_p6c_zero :
    (Finset.univ.filter (fun j => (1e-6 : ℝ) < nodeDist p6c 0 j)) = {1} := by
  ext j
  simp only [Finset.mem_filter, Finset.mem_univ, true_and, Finset.mem_singleton]
  fin_cases j
  · show (1e-6 : ℝ) < nodeDist p6c 0 0 ↔ (0 : Fin 2) = 1
    rw [nodeDist_self]
    exact ⟨fun hlt => absurd hlt (by norm_num), fun hmem => absurd hmem (by decide)⟩
  · show (1e-6 : ℝ) < nodeDist p6c 0 1 ↔ (1 : Fin 2) = 1
    rw [nodeDist_p6c]
    exact ⟨fun _ => rfl, fun _ => by norm_num⟩

lemma filter_p6c_one :
    (Finset.univ.filter (fun j => (1e-6 : ℝ) < nodeDist p6c 1 j)) = {0} := by
  ext j
  simp only [Finset.mem_filter, Finset.mem_univ, true_and, Finset.mem_singleton]
  fin_cases j
  · show (1e-6 : ℝ) < nodeDist p6c 1 0 ↔ (0 : Fin 2) = 0
    rw [nodeDist_comm, nodeDist_p6c]
    exact ⟨fun _ => rfl, fun _ => by norm_num⟩
  · show (1e-6 : ℝ) < nodeDist p6c 1 1 ↔ (1 : Fin 2) = 0
    rw [nodeDist_self]
    exact ⟨fun hlt => absurd hlt (by norm_num), fun hmem => absurd hmem (by decide)⟩

/-- Concrete instance of C6: `p0 = (0,0)`, `p1 = (3,4)`, `w = 2` gives
force on node 0 exactly `(6/5, 8/5) = (1.2, 1.6)` and force on node 1 its
negation `(-6/5, -8/5)`. -/
theorem C6_witness :
    calculate_forces adj1c p6c =
      some ![![6 / 5, 8 / 5], ![-6 / 5, -8 / 5]] := by
  rw [C6_separated_force_formula adj1c p6c (by norm_num) hsep_p6c]
  congr 1
  funext i d
  fin_cases i <;> fin_cases d
  · show specForce adj1c p6c 0 0 = 6 / 5
    unfold specForce
    rw [filter_p6c_zero, Finset.sum_singleton, nodeDist_p6c,
      max_eq_left (by norm_num)]
    norm_num [adj1c, p6c]
  · show specForce adj1c p6c 0 1 = 8 / 5
    unfold specForce
    rw [filter_p6c_zero, Finset.sum_singleton, nodeDist_p6c,
      max_eq_left (by norm_num)]
    norm_num [adj1c, p6c]
  · show specForce adj1c p6c 1 0 = -6 / 5
    unfold specForce
    rw [filter_p6c_one, Finset.sum_singleton, nodeDist_comm, nodeDist_p6c,
      max_eq_left (by norm_num)]
    norm_num [adj1c, p6c]
  · show specForce adj1c p6c 1 1 = -8 / 5
    unfold specForce
    rw [filter_p6c_one, Finset.sum_singleton, nodeDist_comm, nodeDist_p6c,
      max_eq_left (by norm_num)]
    norm_num [adj1c, p6c]

lemma getD_map_get {α β : Type} (f : α → β) (L : List α) (t : ℕ)
    (ht : t < L.length) (d : β) :
    (L.map f).getD t d = f (L.get ⟨t, ht⟩) := by
  induction L generalizing t with
  | nil => exact absurd ht (by simp)
  | cons a L ih =>
    cases t with
    | zero => rfl
    | succ t => exact ih t (by simpa using ht)

/-- A successful run of the loop appends, to each of the five histories,
exactly the images of a step chain `L` of states: the positions, phases,
potential, kinetic and total energies of the successive post-update
states. -/
lemma runLoop_char (P : Params) (adj : Fin N → Fin N → ℝ) (ω : Fin N → ℝ) :
    ∀ (n : ℕ) (s0 : SimState N D) (h h' : Histories N D),
      runLoop P adj ω n s0 h = some h' →
      ∃ L : List (SimState N D), stepChain P adj ω s0 L ∧ L.length ≤ n ∧
        h'.positions_history = h.positions_history ++
          L.map (fun st => st.positions) ∧
        h'.phase_history = h.phase_history ++ L.map (fun st => st.phases) ∧
        h'.potential_energy_history = h.potential_energy_history ++
          L.map (fun st => compute_potential_energy adj st.positions) ∧
        h'.kinetic_energy_history = h.kinetic_energy_history ++
          L.map (fun st => kineticEnergy st.velocities) ∧
        h'.total_energy_history = h.total_energy_history ++
          L.map (fun st => kineticEnergy st.velocities +
            compute_potential_energy adj st.positions) := by
  intro n
  induction n with
  | zero =>
    intro s0 h h' hrun
    obtain rfl := Option.some.inj hrun
    exact ⟨[], trivial, by simp, by simp, by simp, by simp, by simp, by simp⟩
  | succ n ih =>
    intro s0 h h' hrun
    cases hst : stepState P adj ω s0 with
    | none =>
      simp only [runLoop, hst] at hrun
      exact Option.noConfusion hrun
    | some s1 =>
      simp only [runLoop, hst] at hrun
      by_cases hc : total_movement s0.positions s1.positions < P.tol
      · rw [if_pos hc] at hrun
        obtain rfl := Option.some.inj hrun
        refine ⟨[s1], ⟨hst, trivial⟩, by simp, ?_, ?_, ?_, ?_, ?_⟩
        all_goals simp [recordStep]
      · rw [if_neg hc] at hrun
        obtain ⟨L, hchain, hlen, e1, e2, e3, e4, e5⟩ :=
          ih s1 (recordStep adj h s1) h' hrun
        refine ⟨s1 :: L, ⟨hst, hchain⟩, by simp only [List.length_cons]; omega,
          ?_, ?_, ?_, ?_, ?_⟩
        · rw [e1]
          simp [recordStep]
        · rw [e2]
          simp [recordStep]
        · rw [e3]
          simp [recordStep]
        · rw [e4]
          simp [recordStep]
        · rw [e5]
          simp [recordStep]

/-- The states of a step chain are exactly the trajectory states. -/
lemma stepChain_traj (P : Params) (adj : Fin N → Fin N → ℝ) (ω : Fin N → ℝ) :
    ∀ (L : List (SimState N D)) (s0 : SimState N D), stepChain P adj ω s0 L →
      ∀ (t : ℕ) (ht : t < L.length),
        traj P adj ω s0 (t + 1) = some (L.get ⟨t, ht⟩) := by
  intro L
  induction L with
  | nil =>
    intro s0 _ t ht
    exact absurd ht (by simp)
  | cons s1 L ih =>
    intro s0 hchain t ht
    obtain ⟨hst, hchain'⟩ := hchain
    cases t with
    | zero =>
      rw [traj_one]
      exact hst
    | succ t =>
      rw [← traj_shift P adj ω s0 s1 hst (t + 1)]
      exact ih s1 hchain' t (by simpa using ht)

/-- C10: the returned position and phase histories are exactly the sequence
of simulation states as they were at each step: entry `t` equals the
trajectory state after `t` steps, so the in-place updates of later steps
never alter an already-recorded entry. -/
theorem C10_histories_are_step_snapshots
    (P : Params) (adj : Fin N → Fin N → ℝ) (ω : Fin N → ℝ)
    (p0 : Fin N → Fin D → ℝ) (θ0 : Fin N → ℝ) (iterations : ℕ)
    (h : Histories N D)
    (hrun : HONE_worker_with_damped_kuramoto P adj iterations p0 θ0 ω = some h) :
    h.phase_history.length = h.positions_history.length ∧
    ∀ (t : ℕ), t < h.positions_history.length →
      ∃ st, traj P adj ω (initState p0 θ0) t = some st ∧
        h.positions_history.getD t p0 = st.positions ∧
        h.phase_history.getD t θ0 = st.phases := by
  unfold HONE_worker_with_damped_kuramoto at hrun
  obtain ⟨L, hchain, hlen, e1, e2, _, _, _⟩ :=
    runLoop_char P adj ω iterations _ _ _ hrun
  constructor
  · rw [e1, e2]
    simp [initHistories]
  · intro t ht
    cases t with
    | zero =>
      refine ⟨initState p0 θ0, rfl, by rw [e1]; exact rfl, by rw [e2]; exact rfl⟩
    | succ t =>
      have htL : t < L.length := by
        rw [e1] at ht
        simp [initHistories] at ht
        omega
      refine ⟨L.get ⟨t, htL⟩,
        stepChain_traj P adj ω L (initState p0 θ0) hchain t htL, ?_, ?_⟩
      · rw [e1]
        rw [show (initHistories p0 θ0 : Histories N D).positions_history ++
            L.map (fun st => st.positions) =
            p0 :: L.map (fun st => st.positions) from rfl]
        rw [List.getD_cons_succ]
        exact getD_map_get _ L t htL p0
      · rw [e2]
        rw [show (initHistories p0 θ0 : Histories N D).phase_history ++
            L.map (fun st => st.phases) =
            θ0 :: L.map (fun st => st.phases) from rfl]
        rw [List.getD_cons_succ]
        exact getD_map_get _ L t htL θ0

lemma worker_adjc_eval :
    HONE_worker_with_damped_kuramoto Pc adjc 5 p0c θ0c ωc =
      some (recordStep adjc (initHistories p0c θ0c) (initState p0c θ0c)) := by
  unfold HONE_worker_with_damped_kuramoto
  simp only [runLoop, stepState_adjc]
  rw [if_pos]
  rw [total_movement_self]
  show (0 : ℝ) < Pc.tol
  norm_num [Pc]

/-- Concrete instance of C10: in the converging zero-adjacency run, both
recorded entries (index 0 and index 1) equal the trajectory states. -/
theorem C10_witness :
    ∃ h, HONE_worker_with_damped_kuramoto Pc adjc 5 p0c θ0c ωc = some h ∧
      ∃ st, traj Pc adjc ωc (initState p0c θ0c) 1 = some st ∧
        h.positions_history.getD 1 p0c = st.positions ∧
        h.phase_history.getD 1 θ0c = st.phases := by
  refine ⟨recordStep adjc (initHistories p0c θ0c) (initState p0c θ0c),
    worker_adjc_eval, ?_⟩
  have h10 := C10_histories_are_step_snapshots Pc adjc ωc p0c θ0c 5 _
    worker_adjc_eval
  exact h10.2 1 (by simp [recordStep, initHistories])

lemma nodeNorm_sq (x : Fin D → ℝ) : nodeNorm x ^ 2 = ∑ d, x d ^ 2 := by
  unfold nodeNorm
  exact Real.sq_sqrt (Finset.sum_nonneg fun d _ => sq_nonneg (x d))

lemma sum_lower_swap (f : Fin N → Fin N → ℝ) :
    ∑ i, ∑ j ∈ Finset.univ.filter (fun j => j < i), f i j =
    ∑ i, ∑ j ∈ Finset.univ.filter (fun j => i < j), f j i := by
  simp only [Finset.sum_filter]
  exact Finset.sum_comm

lemma compute_potential_eq_spec (adj : Fin N → Fin N → ℝ) (q : Fin N → Fin D → ℝ)
    (hsym : ∀ i j, adj i j = adj j i) :
    compute_potential_energy adj q = specPotential adj q := by
  unfold compute_potential_energy specPotential
  rw [Finset.mul_sum]
  simp_rw [Finset.mul_sum]
  rw [sum_lower_swap (fun i j =>
    0.5 * (adj i j * max (nodeNorm (fun d => q i d - q j d)) (1e-6) ^ 2))]
  refine Finset.sum_congr rfl (fun i _ => Finset.sum_congr rfl (fun j _ => ?_))
  rw [hsym j i]
  exact rfl

lemma compute_potential_nonneg (adj : Fin N → Fin N → ℝ) (q : Fin N → Fin D → ℝ)
    (hnn : ∀ i j, 0 ≤ adj i j) :
    0 ≤ compute_potential_energy adj q := by
  unfold compute_potential_energy
  have hsum : (0 : ℝ) ≤ ∑ i, ∑ j ∈ Finset.univ.filter (fun j => j < i),
      adj i j * max (nodeNorm (fun d => q i d - q j d)) (1e-6) ^ 2 :=
    Finset.sum_nonneg fun i _ => Finset.sum_nonneg fun j _ =>
      mul_nonneg (hnn i j) (sq_nonneg _)
  exact mul_nonneg (by norm_num) hsum

/-- C7: the recorded energies are computed from the post-update state of
each step: kinetic is half the sum of squared velocity components,
potential is the specification's half-weighted sum of squared floored
pairwise distances over unordered pairs (nonnegative when the adjacency
is), and each total entry is exactly the sum of its kinetic and potential
entries. -/
theorem C7_energy_bookkeeping
    (P : Params) (adj : Fin N → Fin N → ℝ) (ω : Fin N → ℝ)
    (p0 : Fin N → Fin D → ℝ) (θ0 : Fin N → ℝ) (iterations : ℕ)
    (h : Histories N D)
    (hsym : ∀ i j, adj i j = adj j i) (hnn : ∀ i j, 0 ≤ adj i j)
    (hrun : HONE_worker_with_damped_kuramoto P adj iterations p0 θ0 ω = some h) :
    (∀ v : Fin N → Fin D → ℝ, kineticEnergy v = 0.5 * ∑ i, ∑ d, v i d ^ 2) ∧
    (∀ q : Fin N → Fin D → ℝ,
      compute_potential_energy adj q = specPotential adj q ∧
      0 ≤ compute_potential_energy adj q) ∧
    h.kinetic_energy_history.length = h.total_energy_history.length ∧
    h.potential_energy_history.length = h.total_energy_history.length ∧
    (∀ t, t < h.total_energy_history.length →
      h.total_energy_history.getD t 0 =
        h.kinetic_energy_history.getD t 0 +
          h.potential_energy_history.getD t 0 ∧
      ∃ st, traj P adj ω (initState p0 θ0) (t + 1) = some st ∧
        h.kinetic_energy_history.getD t 0 = kineticEnergy st.velocities ∧
        h.potential_energy_history.getD t 0 =
          compute_potential_energy adj st.positions) := by
  unfold HONE_worker_with_damped_kuramoto at hrun
  obtain ⟨L, hchain, hlen, _, _, e3, e4, e5⟩ :=
    runLoop_char P adj ω iterations _ _ _ hrun
  refine ⟨?_, ?_, ?_, ?_, ?_⟩
  · intro v
    unfold kineticEnergy
    congr 1
    exact Finset.sum_congr rfl fun i _ => nodeNorm_sq (v i)
  · intro q
    exact ⟨compute_potential_eq_spec adj q hsym, compute_potential_nonneg adj q hnn⟩
  · rw [e4, e5]
    simp [initHistories]
  · rw [e3, e5]
    simp [initHistories]
  · intro t ht
    have htL : t < L.length := by
      rw [e5] at ht
      simpa [initHistories] using ht
    constructor
    · rw [e3, e4, e5]
      simp only [initHistories, List.nil_append]
      rw [getD_map_get _ L t htL 0, getD_map_get _ L t htL 0,
        getD_map_get _ L t htL 0]
    · refine ⟨L.get ⟨t, htL⟩, stepChain_traj P adj ω L _ hchain t htL, ?_, ?_⟩
      · rw [e4]
        simp only [initHistories, List.nil_append]
        exact getD_map_get _ L t htL 0
      · rw [e3]
        simp only [initHistories, List.nil_append]
        exact getD_map_get _ L t htL 0

/-- Concrete instance of C7 on the converging zero-adjacency run: the
single recorded total-energy entry equals the kinetic entry plus the
potential entry. -/
theorem C7_witness :
    ∃ h, HONE_worker_with_damped_kuramoto Pc adjc 5 p0c θ0c ωc = some h ∧
      h.total_energy_history.getD 0 0 =
        h.kinetic_energy_history.getD 0 0 +
          h.potential_energy_history.getD 0 0 := by
  refine ⟨_, worker_adjc_eval, ?_⟩
  have h7 := C7_energy_bookkeeping Pc adjc ωc p0c θ0c 5 _ (fun i j => rfl)
    (fun i j => le_refl 0) worker_adjc_eval
  exact (h7.2.2.2.2 0 (by simp [recordStep, initHistories])).1

lemma calculate_forces_zero_adj (adj : Fin N → Fin N → ℝ)
    (hadj : ∀ i j, adj i j = 0) (p : Fin N → Fin D → ℝ) (F : Fin N → Fin D → ℝ)
    (hF : calculate_forces adj p = some F) : F = fun _ _ => 0 := by
  unfold calculate_forces at hF
  by_cases hc : ∀ i : Fin N, (mask p i).Nonempty
  · rw [if_pos hc] at hF
    obtain rfl := Option.some.inj hF
    funext i d
    simp [hadj]
  · rw [if_neg hc] at hF
    exact Option.noConfusion hF

lemma nodeNorm_smul (c : ℝ) (x : Fin D → ℝ) :
    nodeNorm (fun d => c * x d) = |c| * nodeNorm x := by
  unfold nodeNorm
  rw [show (∑ d, (c * x d) ^ 2) = c ^ 2 * ∑ d, x d ^ 2 from by
    rw [Finset.mul_sum]
    exact Finset.sum_congr rfl fun d _ => by ring]
  rw [Real.sqrt_mul (sq_nonneg c), Real.sqrt_sq_eq_abs]

/-- C8 (amended): with an all-zero adjacency matrix, every successful force
computation returns all zeros and the Kuramoto coupling is identically
zero; since the worker starts from zero velocity, the velocity stays
exactly zero and every trajectory state keeps the initial positions; and
under zero force one step scales each node's velocity norm by
`|1 - gamma|`, so the norm strictly decreases exactly for nonzero velocity
and `0 < gamma < 2` — the damping factor does not involve `dt`. -/
theorem C8_zero_adjacency_dynamics
    (P : Params) (adj : Fin N → Fin N → ℝ) (ω : Fin N → ℝ)
    (p0 : Fin N → Fin D → ℝ) (θ0 : Fin N → ℝ)
    (hadj : ∀ i j, adj i j = 0) :
    (∀ (p F : Fin N → Fin D → ℝ),
      calculate_forces adj p = some F → F = fun _ _ => 0) ∧
    (∀ θ : Fin N → ℝ, phase_diffs adj θ = fun _ => 0) ∧
    (∀ t st, traj P adj ω (initState p0 θ0) t = some st →
      st.velocities = (fun _ _ => 0) ∧ st.positions = p0) ∧
    (∀ (s s' : SimState N D), stepState P adj ω s = some s' → ∀ i,
      nodeNorm (s'.velocities i) = |1 - P.gamma| * nodeNorm (s.velocities i) ∧
      (0 < P.gamma → P.gamma < 2 → nodeNorm (s.velocities i) ≠ 0 →
        nodeNorm (s'.velocities i) < nodeNorm (s.velocities i))) := by
  refine ⟨calculate_forces_zero_adj adj hadj, ?_, ?_, ?_⟩
  · intro θ
    funext i
    simp [phase_diffs, hadj]
  · intro t
    induction t with
    | zero =>
      intro st hst
      obtain rfl := Option.some.inj hst
      exact ⟨rfl, rfl⟩
    | succ t ih =>
      intro st hst
      rw [show traj P adj ω (initState p0 θ0) (t + 1) =
        (traj P adj ω (initState p0 θ0) t).bind (stepState P adj ω) from rfl] at hst
      cases htraj : traj P adj ω (initState p0 θ0) t with
      | none =>
        rw [htraj] at hst
        exact Option.noConfusion hst
      | some s1 =>
        rw [htraj] at hst
        have hstep : stepState P adj ω s1 = some st := hst
        obtain ⟨hv1, hp1⟩ := ih s1 htraj
        unfold stepState at hstep
        obtain ⟨F, hF, hg⟩ := Option.map_eq_some'.mp hstep
        obtain rfl := hg
        have hF0 : F = fun _ _ => 0 :=
          calculate_forces_zero_adj adj hadj s1.positions F hF
        subst hF0
        constructor
        · funext i d
          simp [hv1]
        · funext i d
          simp [hv1, hp1]
  · intro s s' hstep i
    unfold stepState at hstep
    obtain ⟨F, hF, hg⟩ := Option.map_eq_some'.mp hstep
    obtain rfl := hg
    have hF0 : F = fun _ _ => 0 :=
      calculate_forces_zero_adj adj hadj s.positions F hF
    subst hF0
    have hnorm : nodeNorm (fun d =>
        s.velocities i d + (0 : ℝ) * P.dt - P.gamma * s.velocities i d) =
        |1 - P.gamma| * nodeNorm (s.velocities i) := by
      rw [show (fun d => s.velocities i d + (0 : ℝ) * P.dt -
          P.gamma * s.velocities i d) =
          fun d => (1 - P.gamma) * s.velocities i d from by
        funext d
        ring]
      exact nodeNorm_smul (1 - P.gamma) (s.velocities i)
    refine ⟨hnorm, fun hg0 hg2 hne => ?_⟩
    rw [hnorm]
    have habs : |1 - P.gamma| < 1 := by
      rw [abs_lt]
      constructor <;> linarith
    have hpos : 0 < nodeNorm (s.velocities i) :=
      lt_of_le_of_ne (nodeNorm_nonneg _) (Ne.symm hne)
    calc |1 - P.gamma| * nodeNorm (s.velocities i)
        < 1 * nodeNorm (s.velocities i) := mul_lt_mul_of_pos_right habs hpos
      _ = nodeNorm (s.velocities i) := one_mul _

/-- C8 (counterexample to the claim as stated): in the zero-adjacency
worker run the parameters satisfy `0 < gamma * dt < 2`, yet after one step
node 0's velocity magnitude has not strictly decreased (the worker starts
from zero velocity, and the velocity stays zero). -/
theorem C8_strict_decrease_refuted :
    0 < Pc.gamma * Pc.dt ∧ Pc.gamma * Pc.dt < 2 ∧ (∀ i j, adjc i j = 0) ∧
    ∃ s1, traj Pc adjc ωc (initState p0c θ0c) 1 = some s1 ∧
      ¬ nodeNorm (s1.velocities 0) <
        nodeNorm ((initState p0c θ0c).velocities 0) := by
  refine ⟨by norm_num [Pc], by norm_num [Pc], fun i j => rfl,
    initState p0c θ0c, traj_adjc 1, ?_⟩
  exact lt_irrefl _

/-- Concrete instance of the amended C8 on the zero-adjacency run. -/
theorem C8_witness :
    (∀ F, calculate_forces adjc p0c = some F → F = fun _ _ => 0) ∧
    phase_diffs adjc θ0c = (fun _ => 0) ∧
    ∃ st, traj Pc adjc ωc (initState p0c θ0c) 2 = some st ∧
      st.velocities = (fun _ _ => 0) ∧ st.positions = p0c := by
  have h8 := C8_zero_adjacency_dynamics Pc adjc ωc p0c θ0c (fun i j => rfl)
  refine ⟨fun F hF => h8.1 p0c F hF, h8.2.1 θ0c,
    initState p0c θ0c, traj_adjc 2, ?_⟩
  exact h8.2.2.1 2 (initState p0c θ0c) (traj_adjc 2)

end

end HONE
